import Mathlib

/-!
Verification of the chunking utilities (token-wise, sentence-wise and
character-wise text chunkers).  Text is modelled as a list of characters;
the Python string primitives used by the code (split, strip, the
sentence-splitting regular expression, slicing) are embedded as explicit
list functions, and each chunking function is embedded with its argument
validation (a Python ValueError is modelled as the error branch of
Except).  The sentence-wise loop is modelled with an explicit fuel
parameter because its termination is exactly what is under scrutiny;
the other two loops are structurally terminating.
-/

/-- Python whitespace predicate: the characters matched by the regex
class backslash-s on ASCII input (space, tab, newline, carriage return,
vertical tab, form feed). -/
def isWS (c : Char) : Bool :=
  c = ' ' || c = '\t' || c = '\n' || c = '\r' || c = '\x0b' || c = '\x0c'

/-- Python str.strip with no argument: remove leading and trailing
whitespace. -/
def pyStrip (l : List Char) : List Char :=
  ((l.dropWhile isWS).reverse.dropWhile isWS).reverse

/-- Worker for Python str.split with no argument: the accumulator holds
the characters of the word currently being read, in reverse order. -/
def splitWSAux : List Char → List Char → List (List Char)
  | [], acc => if acc = [] then [] else [acc.reverse]
  | c :: cs, acc =>
    if isWS c then
      if acc = [] then splitWSAux cs [] else acc.reverse :: splitWSAux cs []
    else splitWSAux cs (c :: acc)

/-- Python str.split with no argument: maximal runs of non-whitespace
characters, in order; leading, trailing and repeated whitespace produce
no fragments. -/
def splitWS (l : List Char) : List (List Char) :=
  splitWSAux l []

/-- Python " ".join applied to a list of words. -/
def joinSp : List (List Char) → List Char
  | [] => []
  | [w] => w
  | w :: ws => w ++ ' ' :: joinSp ws

/-- Sentence-final punctuation recognised by the splitting regex. -/
def isPunct (c : Char) : Bool :=
  c = '.' || c = '!' || c = '?'

/-- Whether the next character of the remaining input is whitespace. -/
def nextIsWS : List Char → Bool
  | [] => false
  | d :: _ => isWS d

/-- Worker for the sentence-splitting regex (lookbehind punctuation, then
one or more whitespace characters; re.split removes the whole whitespace
run).  The Bool is true while consuming the whitespace run that follows a
match; the accumulator holds the current fragment in reverse order. -/
def splitSentAux : Bool → List Char → List Char → List (List Char)
  | _, [], acc => [acc.reverse]
  | true, c :: cs, acc =>
    if isWS c then splitSentAux true cs acc
    else if isPunct c && nextIsWS cs then
      ((c :: acc).reverse) :: splitSentAux true cs []
    else splitSentAux false cs (c :: acc)
  | false, c :: cs, acc =>
    if isPunct c && nextIsWS cs then
      ((c :: acc).reverse) :: splitSentAux true cs []
    else splitSentAux false cs (c :: acc)

/-- re.split of the sentence regex over the whole text. -/
def splitSentences (text : List Char) : List (List Char) :=
  splitSentAux false text []

/-- The sentence list built by chunk_text_sentencewise: each regex
fragment stripped, whitespace-only fragments discarded. -/
def sentencesOf (text : List Char) : List (List Char) :=
  ((splitSentences text).map pyStrip).filter (fun s => !s.isEmpty)

/-- An external tokenizer capability: encode to token identifiers and
decode back to text.  The tiktoken lookup is outside the embedded
program, so the resolved encoder (or its absence, the fallback mode) is
passed as a parameter. -/
structure Tokenizer where
  encode : List Char → List Nat
  decode : List Nat → List Char

/-- The while loop of chunk_text_tokenwise in the external-encoder
branch: windows of up to max_tokens token ids, decoded back to text,
advancing by max (e - ovl) (e - max_tokens + 1). -/
def tokenLoopIds (tok : Tokenizer) (tokens : List Nat) (max_tokens ovl : Nat)
    (start : Nat) : List (List Char) :=
  if start < tokens.length then
    let e := min (start + max_tokens) tokens.length
    let chunk := tok.decode ((tokens.drop start).take (e - start))
    if e = tokens.length then [chunk]
    else chunk :: tokenLoopIds tok tokens max_tokens ovl (max (e - ovl) (e - max_tokens + 1))
  else []
termination_by tokens.length - start
decreasing_by
  simp_wf
  omega

/-- The while loop of chunk_text_tokenwise in the whitespace-fallback
branch: windows of up to max_tokens words, joined by single spaces. -/
def tokenLoopWords (words : List (List Char)) (max_tokens ovl : Nat)
    (start : Nat) : List (List Char) :=
  if start < words.length then
    let e := min (start + max_tokens) words.length
    let chunk := joinSp ((words.drop start).take (e - start))
    if e = words.length then [chunk]
    else chunk :: tokenLoopWords words max_tokens ovl (max (e - ovl) (e - max_tokens + 1))
  else []
termination_by words.length - start
decreasing_by
  simp_wf
  omega

/-- chunk_text_tokenwise: validate the arguments, then window either the
encoded token ids or the whitespace-split words. -/
def chunk_text_tokenwise (text : List Char) (max_tokens overlap : Int)
    (encoder : Option Tokenizer) : Except String (List (List Char)) :=
  if max_tokens ≤ 0 then .error "max_tokens must be > 0"
  else if overlap < 0 then .error "overlap must be >= 0"
  else
    match encoder with
    | some tok =>
      .ok (tokenLoopIds tok (tok.encode text) max_tokens.toNat overlap.toNat 0)
    | none =>
      .ok (tokenLoopWords (splitWS text) max_tokens.toNat overlap.toNat 0)

/-- The while loop of chunk_text_sentencewise, with an explicit fuel
parameter (the source loop has no a-priori bound; fuel 0 returns none,
meaning the loop has not finished within the given number of
iterations).  State: sentence index i, running buffer current, emitted
chunks. -/
def sentLoop (sentences : List (List Char)) (max_chars ovl : Nat) :
    Nat → Nat → List Char → List (List Char) → Option (List (List Char))
  | 0, _, _, _ => none
  | fuel + 1, i, current, chunks =>
    match sentences.get? i with
    | some s =>
      if current.length + (if current = [] then 0 else 1) + s.length ≤ max_chars
          ∨ current = [] then
        sentLoop sentences max_chars ovl fuel (i + 1)
          (if current = [] then s else pyStrip (current ++ ' ' :: s)) chunks
      else
        sentLoop sentences max_chars ovl fuel i
          (if 0 < ovl then current.drop (current.length - ovl) else [])
          (chunks ++ [current])
    | none => some (if current = [] then chunks else chunks ++ [current])

/-- chunk_text_sentencewise: validate the arguments, split into stripped
sentences, then run the accumulation loop with the given fuel. -/
def chunk_text_sentencewise (text : List Char) (max_chars overlap_chars : Int)
    (fuel : Nat) : Except String (Option (List (List Char))) :=
  if max_chars ≤ 0 then .error "max_chars must be > 0"
  else if overlap_chars < 0 then .error "overlap_chars must be >= 0"
  else .ok (sentLoop (sentencesOf text) max_chars.toNat overlap_chars.toNat fuel 0 [] [])

/-- The while loop of chunk_text_charwise: windows text[start:e] with
e = min (start + max_chars) n, stopping after the window that reaches
the end, advancing by max (e - ovl) (e - max_chars + 1). -/
def charLoop (text : List Char) (max_chars ovl : Nat) (start : Nat) :
    List (List Char) :=
  if start < text.length then
    let e := min (start + max_chars) text.length
    let chunk := (text.drop start).take (e - start)
    if e = text.length then [chunk]
    else chunk :: charLoop text max_chars ovl (max (e - ovl) (e - max_chars + 1))
  else []
termination_by text.length - start
decreasing_by
  simp_wf
  omega

/-- chunk_text_charwise: validate the arguments, then slice. -/
def chunk_text_charwise (text : List Char) (max_chars overlap_chars : Int) :
    Except String (List (List Char)) :=
  if max_chars ≤ 0 then .error "max_chars must be > 0"
  else if overlap_chars < 0 then .error "overlap_chars must be >= 0"
  else .ok (charLoop text max_chars.toNat overlap_chars.toNat 0)

/-- Ceiling division on naturals, as used by the chunk-count property. -/
def ceilDiv (a b : Nat) : Nat :=
  (a + b - 1) / b

/-- Reassembly of a chunk list: every chunk except the last contributes
its prefix with the trailing ovl characters removed; the last chunk
contributes itself whole. -/
def reassemble (ovl : Nat) : List (List Char) → List Char
  | [] => []
  | [c] => c
  | c :: rest => c.take (c.length - ovl) ++ reassemble ovl rest

/-! ### Generic list helpers -/

theorem take_take_min {α : Type} (b a : Nat) (l : List α) :
    (l.take a).take b = l.take (min b a) := by
  induction l generalizing a b with
  | nil => simp
  | cons x l ih =>
    cases a with
    | zero => simp
    | succ a =>
      cases b with
      | zero => simp
      | succ b => simp [List.take_succ_cons, ih, Nat.succ_min_succ]

theorem drop_take_eq {α : Type} (b a : Nat) (l : List α) :
    (l.take a).drop b = (l.drop b).take (a - b) := by
  induction l generalizing a b with
  | nil => simp
  | cons x l ih =>
    cases a with
    | zero => simp
    | succ a =>
      cases b with
      | zero => simp
      | succ b => simpa using ih b a

theorem head?_dropWhile_not (p : Char → Bool) (l : List Char) :
    ∀ c, (l.dropWhile p).head? = some c → p c = false := by
  induction l with
  | nil => intro c h; simp [List.dropWhile] at h
  | cons a l ih =>
    intro c h
    rw [List.dropWhile_cons] at h
    by_cases hp : p a
    · rw [if_pos (by simp [hp])] at h
      exact ih c h
    · rw [if_neg (by simp [hp])] at h
      simp only [List.head?_cons, Option.some.injEq] at h
      subst h
      simpa using hp

theorem getLast?_cons_of_ne_nil {α : Type} (a : α) (l : List α) (h : l ≠ []) :
    (a :: l).getLast? = l.getLast? := by
  cases l with
  | nil => exact absurd rfl h
  | cons b l' => exact List.getLast?_cons_cons

theorem getLast?_dropWhile (p : Char → Bool) (l : List Char)
    (h : l.dropWhile p ≠ []) : (l.dropWhile p).getLast? = l.getLast? := by
  induction l with
  | nil => simp [List.dropWhile] at h
  | cons a l ih =>
    rw [List.dropWhile_cons]
    by_cases hp : p a
    · rw [List.dropWhile_cons, if_pos (by simp [hp])] at h
      have hl : l ≠ [] := by
        intro h0
        subst h0
        simp [List.dropWhile] at h
      rw [if_pos (by simp [hp]), ih h, getLast?_cons_of_ne_nil a l hl]
    · rw [if_neg (by simp [hp])]

/-- Nonempty lists whose first and last characters are not whitespace. -/
def stripped (l : List Char) : Prop :=
  (∀ c, l.head? = some c → isWS c = false) ∧ (∀ c, l.getLast? = some c → isWS c = false)

theorem pyStrip_stripped (l : List Char) : stripped (pyStrip l) := by
  constructor
  · intro c h
    unfold pyStrip at h
    rw [List.head?_reverse] at h
    have hne : (List.dropWhile isWS (List.dropWhile isWS l).reverse) ≠ [] := by
      intro h0
      rw [h0] at h
      simp at h
    rw [getLast?_dropWhile isWS _ hne, List.getLast?_reverse] at h
    exact head?_dropWhile_not isWS l c h
  · intro c h
    unfold pyStrip at h
    rw [List.getLast?_reverse] at h
    exact head?_dropWhile_not isWS _ c h

theorem dropWhile_eq_self_of_head (p : Char → Bool) (l : List Char)
    (h : ∀ c, l.head? = some c → p c = false) : l.dropWhile p = l := by
  cases l with
  | nil => rfl
  | cons a l =>
    rw [List.dropWhile_cons, if_neg]
    simp [h a rfl]

theorem pyStrip_eq_self (l : List Char) (h : stripped l) : pyStrip l = l := by
  unfold pyStrip
  rw [dropWhile_eq_self_of_head isWS l h.1]
  rw [dropWhile_eq_self_of_head isWS l.reverse (by
    intro c hc
    rw [List.head?_reverse] at hc
    exact h.2 c hc)]
  exact List.reverse_reverse l

/-! ### Error handling (C5) -/

/-- C5: each of the three chunking functions fails with the validation
error exactly when its size limit is nonpositive or its overlap is
negative; otherwise it returns normally, whatever the input text, the
resolved encoder, or the fuel. -/
theorem invalid_args_iff (text : List Char) (m ov : Int) (enc : Option Tokenizer)
    (fuel : Nat) :
    ((∃ e, chunk_text_tokenwise text m ov enc = .error e) ↔ m ≤ 0 ∨ ov < 0)
    ∧ ((∃ e, chunk_text_sentencewise text m ov fuel = .error e) ↔ m ≤ 0 ∨ ov < 0)
    ∧ ((∃ e, chunk_text_charwise text m ov = .error e) ↔ m ≤ 0 ∨ ov < 0) := by
  unfold chunk_text_tokenwise chunk_text_sentencewise chunk_text_charwise
  by_cases h1 : m ≤ 0
  · simp [h1]
  · by_cases h2 : ov < 0
    · simp [h1, h2]
    · cases enc <;> simp [h1, h2]

/-! ### Empty input (C7) -/

/-- C7: with valid arguments, the empty text yields an empty chunk
sequence for all three chunking functions (for the external-encoder mode
of the token-wise function, provided the encoder encodes the empty text
to no tokens). -/
theorem empty_input_empty_chunks :
    (∀ m ov : Int, 0 < m → 0 ≤ ov → chunk_text_charwise [] m ov = .ok [])
    ∧ (∀ m ov : Int, 0 < m → 0 ≤ ov → chunk_text_tokenwise [] m ov none = .ok [])
    ∧ (∀ (m ov : Int) (tok : Tokenizer), 0 < m → 0 ≤ ov → tok.encode [] = [] →
        chunk_text_tokenwise [] m ov (some tok) = .ok [])
    ∧ (∀ (m ov : Int) (fuel : Nat), 0 < m → 0 ≤ ov →
        chunk_text_sentencewise [] m ov (fuel + 1) = .ok (some [])) := by
  refine ⟨?_, ?_, ?_, ?_⟩
  · intro m ov h1 h2
    unfold chunk_text_charwise
    rw [if_neg (by omega), if_neg (by omega), charLoop]
    simp
  · intro m ov h1 h2
    unfold chunk_text_tokenwise
    rw [if_neg (by omega), if_neg (by omega)]
    show Except.ok (tokenLoopWords [] _ _ 0) = _
    rw [tokenLoopWords]
    simp
  · intro m ov tok h1 h2 henc
    unfold chunk_text_tokenwise
    rw [if_neg (by omega), if_neg (by omega)]
    show Except.ok (tokenLoopIds tok (tok.encode []) _ _ 0) = _
    rw [henc, tokenLoopIds]
    simp
  · intro m ov fuel h1 h2
    unfold chunk_text_sentencewise
    rw [if_neg (by omega), if_neg (by omega)]
    rfl

/-! ### Token-wise fallback example (C9) -/

/-- C9: in fallback mode (no external tokenizer), chunking the text
"a b c d e" with max_tokens 2 and overlap 0 yields exactly the chunks
"a b", "c d", "e". -/
theorem tokenwise_fallback_example :
    chunk_text_tokenwise ['a', ' ', 'b', ' ', 'c', ' ', 'd', ' ', 'e'] 2 0 none =
      .ok [['a', ' ', 'b'], ['c', ' ', 'd'], ['e']] := by
  simp [chunk_text_tokenwise, tokenLoopWords, splitWS, splitWSAux, isWS, joinSp]

/-! ### Sentence-wise non-termination (C1) -/

/-- Once the sentence loop is at index 1 with buffer "abc." under
max_chars 5 and overlap_chars 5, every iteration re-emits the buffer and
reseeds it to itself without advancing the index, so no amount of fuel
finishes the loop. -/
theorem sentLoop_stuck (fuel : Nat) :
    ∀ chunks : List (List Char),
      sentLoop [['a', 'b', 'c', '.'], ['d', 'e', '.']] 5 5 fuel 1
        ['a', 'b', 'c', '.'] chunks = none := by
  induction fuel with
  | zero => intro chunks; rfl
  | succ f ih =>
    intro chunks
    exact ih (chunks ++ [['a', 'b', 'c', '.']])

/-- C1: the sentence-wise chunker does not terminate on the text
"abc. de." with the valid arguments max_chars 5 and overlap_chars 5:
validation passes, yet the loop is still running after any number of
iterations (the reseeded overlap buffer never shrinks and the sentence
index never advances). -/
theorem sentencewise_diverges (fuel : Nat) :
    chunk_text_sentencewise ['a', 'b', 'c', '.', ' ', 'd', 'e', '.'] 5 5 fuel =
      .ok none := by
  cases fuel with
  | zero => rfl
  | succ f => exact congrArg Except.ok (sentLoop_stuck f [])

/-! ### Oversized single sentence (C8) -/

theorem sentencesOf_mem_ne_nil {text s : List Char} (h : s ∈ sentencesOf text) :
    s ≠ [] := by
  unfold sentencesOf at h
  have := List.of_mem_filter h
  simpa using this

/-- C8: if the whole text splits into a single sentence s, the
sentence-wise chunker emits s whole as its only chunk, never splitting
or dropping it, even when s is longer than max_chars. -/
theorem oversized_sentence_whole (text : List Char) (m ov : Int) (s : List Char)
    (hm : 0 < m) (hov : 0 ≤ ov) (hs : sentencesOf text = [s])
    (hlong : m < (s.length : Int)) :
    ∀ fuel : Nat, chunk_text_sentencewise text m ov (fuel + 2) = .ok (some [s]) := by
  intro fuel
  have hne : s ≠ [] := @sentencesOf_mem_ne_nil text s (by rw [hs]; simp)
  unfold chunk_text_sentencewise
  rw [if_neg (by omega), if_neg (by omega), hs]
  simp only [sentLoop, List.get?]
  simp [hne]

/-- C8 witness: the concrete example from the specification, a single
sentence of 30 characters with max_chars 5 and overlap_chars 0. -/
theorem oversized_sentence_whole_witness :
    chunk_text_sentencewise ("Averylongsentencewithnospaces.".toList) 5 0 2 =
      .ok (some ["Averylongsentencewithnospaces.".toList]) :=
  oversized_sentence_whole _ 5 0 _ (by norm_num) (by norm_num) (by decide)
    (by decide) 0

/-! ### Character-wise loop: structure lemmas -/

theorem charLoop_ne_nil (text : List Char) (m ov start : Nat)
    (h : start < text.length) : charLoop text m ov start ≠ [] := by
  rw [charLoop, if_pos h]
  dsimp only
  split <;> simp

theorem charLoop_head (text : List Char) (m ov start : Nat)
    (h : start < text.length) :
    ∃ tl, charLoop text m ov start =
      ((text.drop start).take (min (start + m) text.length - start)) :: tl := by
  rw [charLoop, if_pos h]
  dsimp only
  split
  · exact ⟨[], rfl⟩
  · exact ⟨_, rfl⟩

theorem ceilDiv_le_one (x s : Nat) (hs : 0 < s) (h : x ≤ s) : ceilDiv x s ≤ 1 := by
  unfold ceilDiv
  have h2 : (x + s - 1) / s < 2 := by
    rw [Nat.div_lt_iff_lt_mul hs]
    omega
  omega

theorem one_le_ceilDiv (x s : Nat) (hs : 0 < s) (hx : 0 < x) : 1 ≤ ceilDiv x s := by
  unfold ceilDiv
  rw [Nat.le_div_iff_mul_le hs]
  omega

theorem ceilDiv_step (x s : Nat) (hs : 0 < s) (hx : s < x) :
    ceilDiv x s = 1 + ceilDiv (x - s) s := by
  unfold ceilDiv
  have h1 : x + s - 1 = x - s - 1 + s + s := by omega
  have h2 : x - s + s - 1 = x - s - 1 + s := by omega
  rw [h1, h2, Nat.add_div_right _ hs, Nat.add_div_right _ hs]
  omega

/-- Chunk count of the character-wise loop from any live start position:
one chunk when the window reaches the end, otherwise one plus the count
from the advanced position; in closed form, max 1 of the ceiling of
(remaining - overlap) / (max_chars - overlap). -/
theorem charLoop_length (text : List Char) (m ov : Nat) (hov : ov < m)
    (start : Nat) (h : start < text.length) :
    (charLoop text m ov start).length =
      max 1 (ceilDiv (text.length - start - ov) (m - ov)) := by
  rw [charLoop, if_pos h]
  dsimp only
  by_cases he : min (start + m) text.length = text.length
  · rw [if_pos he]
    have h2 : ceilDiv (text.length - start - ov) (m - ov) ≤ 1 :=
      ceilDiv_le_one _ _ (by omega) (by omega)
    simp only [List.length_singleton]
    generalize ceilDiv (text.length - start - ov) (m - ov) = q at h2 ⊢
    omega
  · rw [if_neg he]
    have hlt : start + m < text.length := by omega
    have harg : max (min (start + m) text.length - ov)
        (min (start + m) text.length - m + 1) = start + (m - ov) := by omega
    rw [harg]
    have hlt2 : start + (m - ov) < text.length := by omega
    rw [List.length_cons, charLoop_length text m ov hov (start + (m - ov)) hlt2]
    have hx : (m - ov) < text.length - start - ov := by omega
    rw [ceilDiv_step _ _ (by omega) hx]
    have harith : text.length - (start + (m - ov)) - ov =
        text.length - start - ov - (m - ov) := by omega
    rw [harith]
    have h3 : 1 ≤ ceilDiv (text.length - start - ov - (m - ov)) (m - ov) :=
      one_le_ceilDiv _ _ (by omega) (by omega)
    generalize ceilDiv (text.length - start - ov - (m - ov)) (m - ov) = q at h3 ⊢
    omega
termination_by text.length - start
decreasing_by
  omega

/-! ### Character-wise chunk count (C2) -/

/-- C2 counterexample: a 10-character text with max_chars 5 and
overlap_chars 2 produces 3 chunks, while the ceiling formula
len / (max_chars - overlap_chars) of the claim evaluates to 4. -/
theorem charwise_chunk_count_counterexample :
    (chunk_text_charwise ['a', 'a', 'a', 'a', 'a', 'a', 'a', 'a', 'a', 'a'] 5 2).map
        List.length = .ok 3
    ∧ ceilDiv (['a', 'a', 'a', 'a', 'a', 'a', 'a', 'a', 'a', 'a'] : List Char).length
        (5 - 2) = 4 := by
  constructor
  · simp [chunk_text_charwise, charLoop, Except.map]
  · rfl

/-- C2 amended: for a non-empty text and 0 <= overlap_chars < max_chars,
the character-wise chunker returns
max 1 (ceil((len - overlap_chars) / (max_chars - overlap_chars)))
chunks (which equals the ceiling of len / max_chars when overlap_chars
is 0). -/
theorem charwise_chunk_count (text : List Char) (m ov : Nat) (hov : ov < m)
    (hne : text ≠ []) :
    (chunk_text_charwise text (m : Int) (ov : Int)).map List.length =
      .ok (max 1 (ceilDiv (text.length - ov) (m - ov))) := by
  unfold chunk_text_charwise
  rw [if_neg (by omega), if_neg (by omega)]
  have h0 : 0 < text.length := List.length_pos.2 hne
  simp only [Int.toNat_natCast, Except.map]
  rw [charLoop_length text m ov hov 0 h0]
  have : text.length - 0 - ov = text.length - ov := by omega
  rw [this]

/-- C2 witness: the amended count formula at the counterexample input. -/
theorem charwise_chunk_count_witness :
    (chunk_text_charwise ['a', 'a', 'a', 'a', 'a', 'a', 'a', 'a', 'a', 'a'] 5 2).map
        List.length = .ok (max 1 (ceilDiv (10 - 2) (5 - 2))) := by
  simpa using
    charwise_chunk_count ['a', 'a', 'a', 'a', 'a', 'a', 'a', 'a', 'a', 'a'] 5 2
      (by omega) (by simp)

/-! ### Character-wise round trip (C3) -/

theorem reassemble_cons (ov : Nat) (c : List Char) (rest : List (List Char))
    (h : rest ≠ []) :
    reassemble ov (c :: rest) = c.take (c.length - ov) ++ reassemble ov rest := by
  cases rest with
  | nil => exact absurd rfl h
  | cons d rest' => rfl

/-- Reassembling the chunks produced from any live start position
recovers the text from that position on. -/
theorem charLoop_reassemble (text : List Char) (m ov : Nat) (hov : ov < m)
    (start : Nat) (h : start < text.length) :
    reassemble ov (charLoop text m ov start) = text.drop start := by
  rw [charLoop, if_pos h]
  dsimp only
  by_cases he : min (start + m) text.length = text.length
  · rw [if_pos he]
    show (text.drop start).take (min (start + m) text.length - start) = text.drop start
    exact List.take_of_length_le (by simp [List.length_drop]; omega)
  · rw [if_neg he]
    have hlt : start + m < text.length := by omega
    have harg : max (min (start + m) text.length - ov)
        (min (start + m) text.length - m + 1) = start + (m - ov) := by omega
    rw [harg]
    have hlt2 : start + (m - ov) < text.length := by omega
    rw [reassemble_cons ov _ _ (charLoop_ne_nil text m ov _ hlt2),
      charLoop_reassemble text m ov hov (start + (m - ov)) hlt2]
    have hmin : min (start + m) text.length - start = m := by omega
    rw [hmin]
    have hlen : ((text.drop start).take m).length = m := by
      simp only [List.length_take, List.length_drop]
      omega
    rw [hlen, take_take_min]
    have hmo : min (m - ov) m = m - ov := by omega
    rw [hmo]
    have := List.drop_take_append_drop' text start (m - ov)
    rw [Nat.add_comm (m - ov) start] at this
    exact this
termination_by text.length - start
decreasing_by
  omega

/-- C3: for 0 <= overlap_chars < max_chars, dropping the trailing
overlap_chars characters of every chunk but the last and concatenating,
with the last chunk kept whole, reconstructs the input text exactly. -/
theorem charwise_roundtrip (text : List Char) (m ov : Nat) (hov : ov < m) :
    (chunk_text_charwise text (m : Int) (ov : Int)).map (reassemble ov) =
      .ok text := by
  unfold chunk_text_charwise
  rw [if_neg (by omega), if_neg (by omega)]
  simp only [Int.toNat_natCast, Except.map]
  by_cases h0 : 0 < text.length
  · rw [charLoop_reassemble text m ov hov 0 h0]
    simp
  · have htext : text = [] := by
      cases text with
      | nil => rfl
      | cons a l => simp at h0
    subst htext
    rw [charLoop]
    simp [reassemble]

/-- C3 witness: round trip at a concrete input. -/
theorem charwise_roundtrip_witness :
    (chunk_text_charwise ['h', 'e', 'l', 'l', 'o', '!'] 4 1).map (reassemble 1) =
      .ok ['h', 'e', 'l', 'l', 'o', '!'] := by
  simpa using charwise_roundtrip ['h', 'e', 'l', 'l', 'o', '!'] 4 1 (by omega)

/-! ### Character-wise overlap property (C4) -/

/-- Adjacent chunks of the character-wise loop share exactly ov
characters when ov < max_chars: the trailing ov characters of a chunk
equal the leading ov characters of the next chunk (when the next chunk
is at least ov long). -/
theorem charLoop_overlap_aux (text : List Char) (m ov : Nat) (hov : ov < m)
    (start : Nat) (h : start < text.length) :
    ∀ i ci cj, (charLoop text m ov start).get? i = some ci →
      (charLoop text m ov start).get? (i + 1) = some cj →
      ov ≤ cj.length → ci.drop (ci.length - ov) = cj.take ov := by
  rw [charLoop, if_pos h]
  dsimp only
  by_cases he : min (start + m) text.length = text.length
  · rw [if_pos he]
    intro i ci cj hci hcj hcjl
    rcases i with _ | i <;> simp at hcj
  · rw [if_neg he]
    have hlt : start + m < text.length := by omega
    have harg : max (min (start + m) text.length - ov)
        (min (start + m) text.length - m + 1) = start + (m - ov) := by omega
    rw [harg]
    have hlt2 : start + (m - ov) < text.length := by omega
    intro i ci cj hci hcj hcjl
    cases i with
    | zero =>
      rw [List.get?_cons_zero] at hci
      rw [List.get?_cons_succ] at hcj
      injection hci with hci
      obtain ⟨tl, htl⟩ := charLoop_head text m ov (start + (m - ov)) hlt2
      rw [htl, List.get?_cons_zero] at hcj
      injection hcj with hcj
      subst hci
      subst hcj
      have hmin : min (start + m) text.length - start = m := by omega
      rw [hmin]
      have hlen : ((text.drop start).take m).length = m := by
        simp only [List.length_take, List.length_drop]
        omega
      rw [hlen, drop_take_eq, List.drop_drop, take_take_min]
      simp only [List.length_take, List.length_drop] at hcjl
      have hco : m - (m - ov) = ov := by omega
      have hmo : min ov (min (start + (m - ov) + m) text.length - (start + (m - ov)))
          = ov := by omega
      rw [hco, hmo]
    | succ k =>
      rw [List.get?_cons_succ] at hci hcj
      exact charLoop_overlap_aux text m ov hov (start + (m - ov)) hlt2 k ci cj hci hcj hcjl
termination_by text.length - start
decreasing_by
  omega

/-- C4 counterexample: with overlap_chars equal to max_chars (both 2,
satisfying overlap_chars > 0) on the text "abcdef", the loop advances by
one character at a time; adjacent chunks "ab" and "bc" both have length
2, yet the last 2 characters of the first differ from the first 2 of the
second. -/
theorem charwise_overlap_counterexample :
    chunk_text_charwise ['a', 'b', 'c', 'd', 'e', 'f'] 2 2 =
      .ok [['a', 'b'], ['b', 'c'], ['c', 'd'], ['d', 'e'], ['e', 'f']]
    ∧ (['a', 'b'] : List Char).drop (2 - 2) ≠ (['b', 'c'] : List Char).take 2 := by
  constructor
  · simp [chunk_text_charwise, charLoop]
  · decide

/-- C4 amended: the overlap property holds whenever additionally
overlap_chars < max_chars: for adjacent chunks i and i+1 that are at
least overlap_chars long, the trailing overlap_chars characters of chunk
i equal the leading overlap_chars characters of chunk i+1. -/
theorem charwise_overlap (text : List Char) (m ov : Nat) (hpos : 0 < ov)
    (hov : ov < m) (L : List (List Char))
    (hL : chunk_text_charwise text (m : Int) (ov : Int) = .ok L)
    (hmul : 1 < L.length) (i : Nat) (ci cj : List Char)
    (hci : L.get? i = some ci) (hcj : L.get? (i + 1) = some cj)
    (hcil : ov ≤ ci.length) (hcjl : ov ≤ cj.length) :
    ci.drop (ci.length - ov) = cj.take ov := by
  unfold chunk_text_charwise at hL
  rw [if_neg (by omega), if_neg (by omega)] at hL
  simp only [Int.toNat_natCast] at hL
  injection hL with hL
  subst hL
  by_cases h0 : 0 < text.length
  · exact charLoop_overlap_aux text m ov hov 0 h0 i ci cj hci hcj hcjl
  · rw [charLoop, if_neg h0] at hci
    simp at hci

/-- C4 witness: text "abcdef" with max_chars 3 and overlap_chars 1
yields chunks "abc", "cde", "ef"; the first adjacent pair shares the
character c. -/
theorem charwise_overlap_witness :
    (['a', 'b', 'c'] : List Char).drop 2 = (['c', 'd', 'e'] : List Char).take 1 :=
  charwise_overlap ['a', 'b', 'c', 'd', 'e', 'f'] 3 1 (by omega) (by omega)
    [['a', 'b', 'c'], ['c', 'd', 'e'], ['e', 'f']]
    (by simp [chunk_text_charwise, charLoop]) (by simp) 0
    ['a', 'b', 'c'] ['c', 'd', 'e'] rfl rfl (by simp) (by simp)

/-! ### joinSp structure lemmas -/

theorem joinSp_cons (s : List Char) (ss : List (List Char)) (h : ss ≠ []) :
    joinSp (s :: ss) = s ++ ' ' :: joinSp ss := by
  cases ss with
  | nil => exact absurd rfl h
  | cons t ts => rfl

theorem joinSp_ne_nil (s : List Char) (ss : List (List Char)) (hs : s ≠ []) :
    joinSp (s :: ss) ≠ [] := by
  cases ss with
  | nil => exact hs
  | cons t ts =>
    rw [joinSp_cons s (t :: ts) (by simp)]
    simp [hs]

theorem joinSp_ne_nil_of_mem (ss : List (List Char)) (hne : ss ≠ [])
    (h : ∀ x ∈ ss, x ≠ []) : joinSp ss ≠ [] := by
  cases ss with
  | nil => exact absurd rfl hne
  | cons s ts => exact joinSp_ne_nil s ts (h s (by simp))

theorem joinSp_head? (s : List Char) (ss : List (List Char)) (hs : s ≠ []) :
    (joinSp (s :: ss)).head? = s.head? := by
  cases ss with
  | nil => rfl
  | cons t ts =>
    rw [joinSp_cons s (t :: ts) (by simp)]
    exact List.head?_append_of_ne_nil s hs

theorem joinSp_getLast? (ss : List (List Char)) (hne : ∀ x ∈ ss, x ≠ []) :
    ∀ t, ss.getLast? = some t → (joinSp ss).getLast? = t.getLast? := by
  induction ss with
  | nil => intro t h; simp at h
  | cons s ts ih =>
    intro t h
    cases ts with
    | nil =>
      simp only [List.getLast?_singleton, Option.some.injEq] at h
      subst h
      rfl
    | cons u us =>
      rw [getLast?_cons_of_ne_nil s _ (by simp)] at h
      rw [joinSp_cons s (u :: us) (by simp),
        @List.getLast?_append_of_ne_nil _ s (' ' :: joinSp (u :: us)) (by simp)]
      have hjoin : joinSp (u :: us) ≠ [] := joinSp_ne_nil u us (hne u (by simp))
      rw [getLast?_cons_of_ne_nil ' ' _ hjoin]
      exact ih (fun x hx => hne x (List.mem_cons_of_mem s hx)) t h

theorem joinSp_stripped (ss : List (List Char))
    (h : ∀ x ∈ ss, x ≠ [] ∧ stripped x) (hne : ss ≠ []) :
    stripped (joinSp ss) := by
  cases ss with
  | nil => exact absurd rfl hne
  | cons s ts =>
    constructor
    · intro c hc
      rw [joinSp_head? s ts (h s (by simp)).1] at hc
      exact (h s (by simp)).2.1 c hc
    · intro c hc
      obtain ⟨t, ht⟩ : ∃ t, (s :: ts).getLast? = some t :=
        ⟨_, List.getLast?_eq_getLast_of_ne_nil (by simp)⟩
      rw [joinSp_getLast? (s :: ts) (fun x hx => (h x hx).1) t ht] at hc
      exact (h t (List.mem_of_getLast?_eq_some ht)).2.2 c hc

theorem joinSp_length (ss : List (List Char)) :
    (joinSp ss).length = (ss.map List.length).sum + (ss.length - 1) := by
  induction ss with
  | nil => rfl
  | cons s ts ih =>
    cases ts with
    | nil => simp [joinSp]
    | cons u us =>
      rw [joinSp_cons s (u :: us) (by simp)]
      simp only [List.length_append, List.length_cons, ih, List.map_cons,
        List.sum_cons]
      omega

theorem joinSp_take_length_le (ss : List (List Char)) (j : Nat) :
    (joinSp (ss.take j)).length ≤ (joinSp ss).length := by
  rw [joinSp_length, joinSp_length]
  have h1 : ((ss.take j).map List.length).sum ≤ (ss.map List.length).sum :=
    List.Sublist.sum_le_sum ((List.take_sublist j ss).map List.length)
      (fun a _ => Nat.zero_le a)
  have h2 : (ss.take j).length ≤ ss.length := by
    simp only [List.length_take]
    omega
  omega

theorem joinSp_append_single (l : List (List Char)) (s : List Char) (h : l ≠ []) :
    joinSp (l ++ [s]) = joinSp l ++ ' ' :: s := by
  induction l with
  | nil => exact absurd rfl h
  | cons x l ih =>
    cases l with
    | nil => rfl
    | cons y l' =>
      rw [List.cons_append, joinSp_cons x _ (by simp), ih (by simp),
        joinSp_cons x (y :: l') (by simp)]
      simp [List.append_assoc]

theorem joinSp_take_succ (ss : List (List Char)) (j : Nat) (hj : j < ss.length)
    (hj0 : 0 < j) :
    joinSp (ss.take (j + 1)) = joinSp (ss.take j) ++ ' ' :: ss.get ⟨j, hj⟩ := by
  rw [List.take_succ]
  have hget : ss[j]? = some (ss.get ⟨j, hj⟩) := by
    simp [List.getElem?_eq_getElem hj]
  rw [hget]
  simp only [Option.toList]
  refine joinSp_append_single _ _ ?_
  intro h0
  have := congrArg List.length h0
  simp only [List.length_take, List.length_nil] at this
  omega

/-! ### Sentence loop stepping -/

theorem sentLoop_step_some (ss : List (List Char)) (m ov fuel i : Nat)
    (current : List Char) (chunks : List (List Char)) (s : List Char)
    (hget : ss.get? i = some s) :
    sentLoop ss m ov (fuel + 1) i current chunks =
      if current.length + (if current = [] then 0 else 1) + s.length ≤ m
          ∨ current = [] then
        sentLoop ss m ov fuel (i + 1)
          (if current = [] then s else pyStrip (current ++ ' ' :: s)) chunks
      else
        sentLoop ss m ov fuel i
          (if 0 < ov then current.drop (current.length - ov) else [])
          (chunks ++ [current]) := by
  conv_lhs => rw [sentLoop]
  rw [hget]

theorem sentLoop_step_none (ss : List (List Char)) (m ov fuel i : Nat)
    (current : List Char) (chunks : List (List Char))
    (hget : ss.get? i = none) :
    sentLoop ss m ov (fuel + 1) i current chunks =
      some (if current = [] then chunks else chunks ++ [current]) := by
  conv_lhs => rw [sentLoop]
  rw [hget]

theorem sentencesOf_mem_stripped {text s : List Char} (h : s ∈ sentencesOf text) :
    stripped s := by
  unfold sentencesOf at h
  have h2 := List.mem_of_mem_filter h
  obtain ⟨x, _, rfl⟩ := List.mem_map.1 h2
  exact pyStrip_stripped x

/-- If all sentences together fit in one chunk (the joined text is at
most max_chars long), the loop consumes them one by one, the buffer
always being the join of the sentences seen so far, and finally emits
that join as the only chunk. -/
theorem sentLoop_consume (ss : List (List Char)) (m ov : Nat)
    (hstrip : ∀ x ∈ ss, x ≠ [] ∧ stripped x)
    (hfit : (joinSp ss).length ≤ m) :
    ∀ fuel j chunks, 0 < j → j ≤ ss.length → ss.length - j < fuel →
      sentLoop ss m ov fuel j (joinSp (ss.take j)) chunks =
        some (chunks ++ [joinSp ss]) := by
  intro fuel
  induction fuel with
  | zero => intro j chunks _ _ h3; omega
  | succ f ih =>
    intro j chunks hj0 hjle hfuel
    have htake_ne : ss.take j ≠ [] := by
      intro h0
      have := congrArg List.length h0
      simp only [List.length_take, List.length_nil] at this
      omega
    have hcur_ne : joinSp (ss.take j) ≠ [] :=
      joinSp_ne_nil_of_mem _ htake_ne
        (fun x hx => (hstrip x (List.mem_of_mem_take hx)).1)
    by_cases hj : j < ss.length
    · have hget : ss.get? j = some (ss.get ⟨j, hj⟩) := List.get?_eq_get hj
      rw [sentLoop_step_some ss m ov f j _ chunks _ hget]
      have htake : joinSp (ss.take (j + 1)) =
          joinSp (ss.take j) ++ ' ' :: ss.get ⟨j, hj⟩ := joinSp_take_succ ss j hj hj0
      have hcond : (joinSp (ss.take j)).length +
          (if joinSp (ss.take j) = [] then 0 else 1) + (ss.get ⟨j, hj⟩).length ≤ m := by
        rw [if_neg hcur_ne]
        have h1 := joinSp_take_length_le ss (j + 1)
        have h2 : (joinSp (ss.take (j + 1))).length =
            (joinSp (ss.take j)).length + 1 + (ss.get ⟨j, hj⟩).length := by
          rw [htake]
          simp only [List.length_append, List.length_cons]
          omega
        omega
      rw [if_pos (Or.inl hcond), if_neg hcur_ne]
      have hstrip_eq : pyStrip (joinSp (ss.take j) ++ ' ' :: ss.get ⟨j, hj⟩) =
          joinSp (ss.take (j + 1)) := by
        rw [← htake]
        refine pyStrip_eq_self _ (joinSp_stripped (ss.take (j + 1)) ?_ ?_)
        · intro x hx
          exact hstrip x (List.mem_of_mem_take hx)
        · intro h0
          have := congrArg List.length h0
          simp only [List.length_take, List.length_nil] at this
          omega
      rw [hstrip_eq]
      exact ih (j + 1) chunks (by omega) (by omega) (by omega)
    · have hj_eq : j = ss.length := by omega
      have hget : ss.get? j = none := List.get?_eq_none.2 (by omega)
      rw [sentLoop_step_none ss m ov f j _ chunks hget]
      have hts : ss.take j = ss := by
        rw [hj_eq]
        exact List.take_length ss
      rw [hts] at hcur_ne ⊢
      rw [if_neg hcur_ne]

/-! ### Single chunk when everything fits (C6) -/

theorem tokenLoopWords_single (words : List (List Char)) (m ov : Nat)
    (hne : words ≠ []) (hlen : words.length ≤ m) :
    tokenLoopWords words m ov 0 = [joinSp words] := by
  rw [tokenLoopWords]
  have h0 : 0 < words.length := List.length_pos.2 hne
  rw [if_pos h0]
  dsimp only
  have hmin : min (0 + m) words.length = words.length := by omega
  rw [if_pos hmin, hmin]
  simp

/-- When the sentences of the text all fit together in one chunk, the
sentence-wise chunker returns exactly that one chunk: the sentences
joined by single spaces. -/
theorem sentencewise_single_chunk (text : List Char) (m ov : Int) (fuel : Nat)
    (hm : 0 < m) (hov : 0 ≤ ov) (hne : sentencesOf text ≠ [])
    (hfit : ((joinSp (sentencesOf text)).length : Int) ≤ m)
    (hfuel : (sentencesOf text).length + 1 ≤ fuel) :
    chunk_text_sentencewise text m ov fuel = .ok (some [joinSp (sentencesOf text)]) := by
  unfold chunk_text_sentencewise
  rw [if_neg (by omega), if_neg (by omega)]
  obtain ⟨f, rfl⟩ : ∃ f, fuel = f + 1 := ⟨fuel - 1, by omega⟩
  obtain ⟨s0, ss', hss'⟩ : ∃ s0 ss', sentencesOf text = s0 :: ss' := by
    cases hc : sentencesOf text with
    | nil => exact absurd hc hne
    | cons a b => exact ⟨a, b, rfl⟩
  have hget : (sentencesOf text).get? 0 = some s0 := by rw [hss']; rfl
  rw [sentLoop_step_some _ _ _ f 0 [] [] s0 hget, if_pos (Or.inr rfl), if_pos rfl]
  have hs0 : s0 = joinSp ((sentencesOf text).take 1) := by rw [hss']; rfl
  have hstrip : ∀ x ∈ sentencesOf text, x ≠ [] ∧ stripped x := fun x hx =>
    ⟨sentencesOf_mem_ne_nil hx, sentencesOf_mem_stripped hx⟩
  have hlen0 : 0 < (sentencesOf text).length := by
    rw [hss']
    simp
  rw [hs0]
  have h := sentLoop_consume (sentencesOf text) m.toNat ov.toNat hstrip
    (by omega) f 1 [] (by omega) (by omega) (by omega)
  rw [h]
  simp

/-- C6 counterexample: the one-character text " " is non-empty and fits
well within max_chars 5, yet the sentence-wise and the token-wise
chunkers both return an empty chunk sequence (whitespace-only fragments
are discarded), not a single chunk. -/
theorem single_chunk_counterexample :
    chunk_text_sentencewise [' '] 5 0 2 = .ok (some [])
    ∧ chunk_text_tokenwise [' '] 5 0 none = .ok []
    ∧ ([' '] : List Char).length = 1 := by
  refine ⟨rfl, ?_, rfl⟩
  simp [chunk_text_tokenwise, tokenLoopWords, splitWS, splitWSAux, isWS]

/-- C6 amended: for a non-empty input that also contains at least one
non-whitespace character (so that tokenization or sentence splitting is
non-empty) and that fits within a single chunk, each chunker returns
exactly one chunk: the text itself for the character-wise chunker, the
words joined by single spaces for the token-wise fallback, and the
sentences joined by single spaces for the sentence-wise chunker. -/
theorem single_chunk_when_fits :
    (∀ (text : List Char) (m ov : Nat), 0 < m → text ≠ [] → text.length ≤ m →
        chunk_text_charwise text (m : Int) (ov : Int) = .ok [text])
    ∧ (∀ (text : List Char) (m ov : Nat), 0 < m → splitWS text ≠ [] →
        (splitWS text).length ≤ m →
        chunk_text_tokenwise text (m : Int) (ov : Int) none =
          .ok [joinSp (splitWS text)])
    ∧ (∀ (text : List Char) (m ov : Int) (fuel : Nat), 0 < m → 0 ≤ ov →
        sentencesOf text ≠ [] →
        ((joinSp (sentencesOf text)).length : Int) ≤ m →
        (sentencesOf text).length + 1 ≤ fuel →
        chunk_text_sentencewise text m ov fuel =
          .ok (some [joinSp (sentencesOf text)])) := by
  refine ⟨?_, ?_, ?_⟩
  · intro text m ov hm hne hfits
    unfold chunk_text_charwise
    rw [if_neg (by omega), if_neg (by omega)]
    simp only [Int.toNat_natCast]
    have h0 : 0 < text.length := List.length_pos.2 hne
    rw [charLoop, if_pos h0]
    dsimp only
    have hmin : min (0 + m) text.length = text.length := by omega
    rw [if_pos hmin, hmin]
    simp
  · intro text m ov hm hne hfits
    unfold chunk_text_tokenwise
    rw [if_neg (by omega), if_neg (by omega)]
    simp only [Int.toNat_natCast]
    rw [tokenLoopWords_single (splitWS text) m ov hne hfits]
  · intro text m ov fuel hm hov hne hfit hfuel
    exact sentencewise_single_chunk text m ov fuel hm hov hne hfit hfuel

/-- C6 witness: the two-character text "hi" with max size 5 yields one
chunk under all three chunkers. -/
theorem single_chunk_when_fits_witness :
    chunk_text_charwise ['h', 'i'] 5 0 = .ok [['h', 'i']]
    ∧ chunk_text_tokenwise ['h', 'i'] 5 0 none = .ok [['h', 'i']]
    ∧ chunk_text_sentencewise ['h', 'i'] 5 0 2 = .ok (some [['h', 'i']]) := by
  refine ⟨?_, ?_, ?_⟩
  · simpa using single_chunk_when_fits.1 ['h', 'i'] 5 0 (by omega) (by simp)
      (by simp)
  · have h := single_chunk_when_fits.2.1 ['h', 'i'] 5 0 (by omega) (by decide)
      (by decide)
    simpa [splitWS, splitWSAux, isWS, joinSp] using h
  · have h := single_chunk_when_fits.2.2 ['h', 'i'] 5 0 2 (by norm_num)
      (by norm_num) (by decide) (by decide) (by decide)
    exact h

/-- C7 witness: empty input with valid arguments under all four modes. -/
theorem empty_input_empty_chunks_witness :
    chunk_text_charwise [] 3 1 = .ok []
    ∧ chunk_text_tokenwise [] 3 1 none = .ok []
    ∧ chunk_text_tokenwise [] 3 1 (some ⟨fun _ => [], fun _ => []⟩) = .ok []
    ∧ chunk_text_sentencewise [] 3 1 1 = .ok (some []) :=
  ⟨empty_input_empty_chunks.1 3 1 (by norm_num) (by norm_num),
   empty_input_empty_chunks.2.1 3 1 (by norm_num) (by norm_num),
   empty_input_empty_chunks.2.2.1 3 1 ⟨fun _ => [], fun _ => []⟩ (by norm_num)
     (by norm_num) rfl,
   empty_input_empty_chunks.2.2.2 3 1 0 (by norm_num) (by norm_num)⟩

/-! ### Token-wise fallback chunks are runs of words (C10) -/

/-- Every chunk produced by the fallback window loop is a consecutive
run of the whitespace-split words, joined by single spaces. -/
theorem tokenLoopWords_mem (words : List (List Char)) (m ov : Nat)
    (start : Nat) :
    ∀ c, c ∈ tokenLoopWords words m ov start →
      ∃ i k, c = joinSp ((words.drop i).take k) := by
  rw [tokenLoopWords]
  by_cases h : start < words.length
  · rw [if_pos h]
    dsimp only
    by_cases he : min (start + m) words.length = words.length
    · rw [if_pos he]
      intro c hc
      simp only [List.mem_singleton] at hc
      exact ⟨start, _, hc⟩
    · rw [if_neg he]
      intro c hc
      rcases List.mem_cons.1 hc with hc | hc
      · exact ⟨start, _, hc⟩
      · exact tokenLoopWords_mem words m ov _ c hc
  · rw [if_neg h]
    intro c hc
    simp at hc
termination_by words.length - start
decreasing_by
  omega

/-- C10: in fallback mode every chunk of the token-wise chunker is a
consecutive run of the whitespace-delimited words of the input joined by
single spaces; in particular the original whitespace is not preserved,
even when the whole input fits in one chunk, as the tab in "a\tb"
becoming a single space shows. -/
theorem tokenwise_fallback_chunks_are_word_runs :
    (∀ (text : List Char) (m ov : Int) (L : List (List Char)) (c : List Char),
        chunk_text_tokenwise text m ov none = .ok L → c ∈ L →
        ∃ i k, c = joinSp (((splitWS text).drop i).take k))
    ∧ chunk_text_tokenwise ['a', '\t', 'b'] 10 0 none = .ok [['a', ' ', 'b']] := by
  constructor
  · intro text m ov L c hL hc
    unfold chunk_text_tokenwise at hL
    by_cases h1 : m ≤ 0
    · rw [if_pos h1] at hL
      exact absurd hL (by simp)
    · rw [if_neg h1] at hL
      by_cases h2 : ov < 0
      · rw [if_pos h2] at hL
        exact absurd hL (by simp)
      · rw [if_neg h2] at hL
        injection hL with hL
        subst hL
        exact tokenLoopWords_mem (splitWS text) m.toNat ov.toNat 0 c hc
  · simp [chunk_text_tokenwise, tokenLoopWords, splitWS, splitWSAux, isWS, joinSp]

/-- C10 witness: the chunk "a b" of the input "a\tb" is the run of both
words joined by a single space. -/
theorem tokenwise_fallback_chunks_are_word_runs_witness :
    ∃ i k, (['a', ' ', 'b'] : List Char) =
      joinSp (((splitWS ['a', '\t', 'b']).drop i).take k) :=
  tokenwise_fallback_chunks_are_word_runs.1 ['a', '\t', 'b'] 10 0
    [['a', ' ', 'b']] ['a', ' ', 'b']
    (by simp [chunk_text_tokenwise, tokenLoopWords, splitWS, splitWSAux, isWS, joinSp])
    (by simp)
